import Mathlib

set_option linter.unusedVariables false

/-!
Verification of the PageRank engine in `pagerank.py`.

The corpus (`dict` from page name to set of linked pages) is embedded as a
`Graph`: the list of page keys in dict order and, for each page, its list of
outbound links.  Probabilities are rational numbers; Python `dict`s whose keys
are the corpus pages are embedded as association lists keyed in corpus order.
The random draws of `sample_pagerank` and the unbounded `while` loop of
`iterate_pagerank` are made explicit (a draw sequence, a fuel parameter).
-/

namespace PageRank

/-- A link graph: the corpus pages in dict order, and each page's outbound
links `corpus[p]` as a list. -/
structure Graph where
  pages : List String
  out : String → List String

/-- The link-graph invariants from the data model: page keys are distinct, each
outbound set is duplicate-free, and every link target is itself a page of the
graph (the crawler only keeps links into the corpus). -/
def Graph.WF (g : Graph) : Prop :=
  g.pages.Nodup ∧ ∀ p ∈ g.pages, (g.out p).Nodup ∧ ∀ q ∈ g.out p, q ∈ g.pages

instance Graph.decWF (g : Graph) : Decidable g.WF := by
  unfold Graph.WF
  infer_instance

/-- `transition_model(corpus, page, damping_factor)`: if the current page has
outbound links, every corpus key gets `(1 - d)/len(corpus)`, and keys inside
`corpus[page]` additionally get `d/len(corpus[page])`; a dangling page yields
the uniform distribution `1/len(corpus)`. -/
def transition_model (g : Graph) (page : String) (d : ℚ) : List (String × ℚ) :=
  if 0 < (g.out page).length then
    g.pages.map (fun key =>
      if key ∉ g.out page then (key, (1 - d) / (g.pages.length : ℚ))
      else (key, d / ((g.out page).length : ℚ) + (1 - d) / (g.pages.length : ℚ)))
  else
    g.pages.map (fun key => (key, 1 / (g.pages.length : ℚ)))

/- List-summation helpers. -/

theorem sum_map_add (l : List String) (f h : String → ℚ) :
    (l.map (fun x => f x + h x)).sum = (l.map f).sum + (l.map h).sum := by
  induction l with
  | nil => simp
  | cons a t ih => simp [ih]; ring

theorem sum_map_const (l : List String) (c : ℚ) :
    (l.map (fun _ => c)).sum = (l.length : ℚ) * c := by
  induction l with
  | nil => simp
  | cons a t ih => simp [ih]; ring

theorem sum_map_ite_mem (l m : List String) (c : ℚ) (hl : l.Nodup) (hm : m.Nodup)
    (hsub : ∀ x ∈ m, x ∈ l) :
    (l.map (fun x => if x ∈ m then c else 0)).sum = (m.length : ℚ) * c := by
  classical
  have h1 : l.toFinset.sum (fun x => if x ∈ m then c else 0)
      = (l.map (fun x => if x ∈ m then c else 0)).sum :=
    List.sum_toFinset _ hl
  rw [← h1]
  have h2 : ∀ x : String, (if x ∈ m then c else 0) = if x ∈ m.toFinset then c else 0 := by
    intro x; simp [List.mem_toFinset]
  simp only [h2]
  rw [Finset.sum_ite_mem]
  have h3 : l.toFinset ∩ m.toFinset = m.toFinset := by
    apply Finset.inter_eq_right.mpr
    intro x hx
    simp only [List.mem_toFinset] at hx ⊢
    exact hsub x hx
  rw [h3, Finset.sum_const, List.toFinset_card_of_nodup hm, nsmul_eq_mul]

/-- Claim C1: for a well-formed non-empty graph, a page of the graph and a
damping factor in (0,1), `transition_model` returns one entry per corpus page,
the values sum to 1, a dangling page yields the exactly uniform distribution,
and otherwise pages outside the outbound set get `(1-d)/|graph|` while pages
inside it get `(1-d)/|graph| + d/|outbound(page)|`. -/
theorem transition_model_correct (g : Graph) (page : String) (d : ℚ)
    (hwf : g.WF) (hne : g.pages ≠ []) (hpage : page ∈ g.pages)
    (hd0 : 0 < d) (hd1 : d < 1) :
    (transition_model g page d).map Prod.fst = g.pages ∧
    ((transition_model g page d).map Prod.snd).sum = 1 ∧
    ((g.out page).length = 0 →
      ∀ pr ∈ transition_model g page d, pr.2 = 1 / (g.pages.length : ℚ)) ∧
    (0 < (g.out page).length →
      ∀ pr ∈ transition_model g page d,
        (pr.1 ∉ g.out page → pr.2 = (1 - d) / (g.pages.length : ℚ)) ∧
        (pr.1 ∈ g.out page →
          pr.2 = (1 - d) / (g.pages.length : ℚ) + d / ((g.out page).length : ℚ))) := by
  have hn : (g.pages.length : ℚ) ≠ 0 :=
    Nat.cast_ne_zero.mpr (List.length_pos.mpr hne).ne'
  by_cases hL : 0 < (g.out page).length
  · have hL0 : (g.out page).length ≠ 0 := Nat.pos_iff_ne_zero.mp hL
    have hLQ : ((g.out page).length : ℚ) ≠ 0 := by exact_mod_cast hL0
    have hout := hwf.2 page hpage
    refine ⟨?_, ?_, ?_, ?_⟩
    · simp only [transition_model, if_pos hL, List.map_map]
      have hfst : (Prod.fst ∘ fun key =>
          if key ∉ g.out page then (key, (1 - d) / (g.pages.length : ℚ))
          else (key, d / ((g.out page).length : ℚ) + (1 - d) / (g.pages.length : ℚ))) = id := by
        funext key
        by_cases hk : key ∈ g.out page <;> simp [hk]
      rw [hfst, List.map_id]
    · simp only [transition_model, if_pos hL, List.map_map]
      have hsnd : (Prod.snd ∘ fun key =>
          if key ∉ g.out page then (key, (1 - d) / (g.pages.length : ℚ))
          else (key, d / ((g.out page).length : ℚ) + (1 - d) / (g.pages.length : ℚ)))
          = fun key => (1 - d) / (g.pages.length : ℚ)
            + (if key ∈ g.out page then d / ((g.out page).length : ℚ) else 0) := by
        funext key
        by_cases hk : key ∈ g.out page <;> simp [hk] <;> try ring
      rw [hsnd, sum_map_add, sum_map_const, sum_map_ite_mem _ _ _ hwf.1 hout.1 hout.2]
      field_simp
      try ring
    · intro h0
      omega
    · intro _ pr hpr
      simp only [transition_model, if_pos hL, List.mem_map] at hpr
      obtain ⟨key, hkey, hpr⟩ := hpr
      by_cases hk : key ∈ g.out page
      · simp only [hk, not_true_eq_false, if_false] at hpr
        subst hpr
        constructor
        · intro hcontra; exact absurd hk hcontra
        · intro _; simp; ring
      · simp only [hk, not_false_eq_true, if_true] at hpr
        subst hpr
        constructor
        · intro _; rfl
        · intro hcontra; exact absurd hcontra hk
  · have hL0 : (g.out page).length = 0 := Nat.eq_zero_of_not_pos hL
    refine ⟨?_, ?_, ?_, ?_⟩
    · simp only [transition_model, if_neg hL, List.map_map]
      have hfst : (Prod.fst ∘ fun key : String => (key, 1 / (g.pages.length : ℚ))) = id := rfl
      rw [hfst, List.map_id]
    · simp only [transition_model, if_neg hL, List.map_map]
      have : (Prod.snd ∘ fun key : String => (key, 1 / (g.pages.length : ℚ)))
          = fun _ : String => 1 / (g.pages.length : ℚ) := rfl
      rw [this, sum_map_const]
      field_simp
    · intro _ pr hpr
      simp only [transition_model, if_neg hL, List.mem_map] at hpr
      obtain ⟨key, _, hpr⟩ := hpr
      subst hpr
      rfl
    · intro hcontra
      omega

/-- The two-page cycle graph: `A` links to `B` and `B` links to `A`. -/
def gTwo : Graph :=
  ⟨["A", "B"], fun p => if p = "A" then ["B"] else if p = "B" then ["A"] else []⟩

/-- One step of the visit counter: the dict update `pagerank_dict[p] += 1`,
inserting `p ↦ 1` when `p` is absent, preserving dict insertion order. -/
def bump (l : List (String × Nat)) (p : String) : List (String × Nat) :=
  match l with
  | [] => [(p, 1)]
  | (q, c) :: t => if q = p then (q, c + 1) :: t else (q, c) :: bump t p

/-- The visit counter after tallying a whole draw sequence. -/
def tallyDraws (draws : List String) : List (String × Nat) :=
  draws.foldl bump []

/-- `sample_pagerank(corpus, damping_factor, n)`: the randomness is made
explicit — `seed` is the uniformly chosen starting page (`random.choice`) and
`draws` lists the successive results of `random.choices` over the transition
model, of which there are `n`. Each drawn page's counter is incremented and at
the end every counter is divided by `n`; the seed page only starts the walk and
is never itself tallied. -/
def sample_pagerank (g : Graph) (d : ℚ) (seed : String) (n : Nat)
    (draws : List String) : List (String × ℚ) :=
  (tallyDraws draws).map (fun pc => (pc.1, (pc.2 : ℚ) / (n : ℚ)))

/-- Total of the visit counters. -/
def countSum (l : List (String × Nat)) : Nat :=
  (l.map Prod.snd).sum

theorem countSum_bump (l : List (String × Nat)) (p : String) :
    countSum (bump l p) = countSum l + 1 := by
  induction l with
  | nil => rfl
  | cons a t ih =>
    obtain ⟨q, c⟩ := a
    by_cases hq : q = p
    · simp [bump, hq, countSum]
      ring
    · simp [bump, hq, countSum] at ih ⊢
      omega

theorem countSum_foldl (draws : List String) :
    ∀ acc : List (String × Nat),
      countSum (draws.foldl bump acc) = countSum acc + draws.length := by
  induction draws with
  | nil => intro acc; simp
  | cons a t ih =>
    intro acc
    simp only [List.foldl_cons, List.length_cons, ih (bump acc a), countSum_bump]
    omega

theorem counts_pos_bump (l : List (String × Nat)) (p : String)
    (h : ∀ pc ∈ l, 1 ≤ pc.2) : ∀ pc ∈ bump l p, 1 ≤ pc.2 := by
  induction l with
  | nil =>
    intro pc hpc
    simp [bump] at hpc
    simp [hpc]
  | cons a t ih =>
    obtain ⟨q, c⟩ := a
    intro pc hpc
    by_cases hq : q = p
    · simp [bump, hq] at hpc
      rcases hpc with hpc | hpc
      · simp [hpc]
      · exact h pc (by simp [hpc])
    · simp [bump, hq] at hpc
      rcases hpc with hpc | hpc
      · exact h pc (by simp [hpc])
      · exact ih (fun x hx => h x (by simp [hx])) pc hpc

theorem counts_pos_foldl (draws : List String) :
    ∀ acc : List (String × Nat), (∀ pc ∈ acc, 1 ≤ pc.2) →
      ∀ pc ∈ draws.foldl bump acc, 1 ≤ pc.2 := by
  induction draws with
  | nil => intro acc hacc; simpa using hacc
  | cons a t ih =>
    intro acc hacc
    exact ih (bump acc a) (counts_pos_bump acc a hacc)

theorem keys_bump (l : List (String × Nat)) (p q : String) :
    q ∈ (bump l p).map Prod.fst ↔ q ∈ l.map Prod.fst ∨ q = p := by
  induction l with
  | nil => simp [bump]
  | cons a t ih =>
    obtain ⟨r, c⟩ := a
    by_cases hr : r = p
    · subst hr
      simp [bump]
      tauto
    · simp [bump, hr, ih]
      tauto

theorem keys_foldl (draws : List String) :
    ∀ acc : List (String × Nat), ∀ q : String,
      q ∈ (draws.foldl bump acc).map Prod.fst ↔ q ∈ acc.map Prod.fst ∨ q ∈ draws := by
  induction draws with
  | nil => intro acc q; simp
  | cons a t ih =>
    intro acc q
    simp only [List.foldl_cons, ih (bump acc a), keys_bump, List.mem_cons]
    tauto

theorem sum_counts_div (l : List (String × Nat)) (n : Nat) :
    (l.map (fun pc => (pc.2 : ℚ) / (n : ℚ))).sum = (countSum l : ℚ) / (n : ℚ) := by
  induction l with
  | nil => simp [countSum]
  | cons a t ih =>
    have hc : countSum (a :: t) = a.2 + countSum t := by
      simp [countSum]
    rw [List.map_cons, List.sum_cons, ih, hc, Nat.cast_add, add_div]

/-- Claim C3: for every graph, damping factor, seed page and sequence of
exactly `n ≥ 1` draws, the values returned by `sample_pagerank` sum to exactly
1, each value is a positive integer multiple of `1/n`, and the result does not
depend on the seed page (the seed is never tallied). -/
theorem sample_pagerank_sums_to_one (g : Graph) (d : ℚ) (seed : String) (n : Nat)
    (draws : List String) (hn : 1 ≤ n) (hlen : draws.length = n) :
    ((sample_pagerank g d seed n draws).map Prod.snd).sum = 1 ∧
    (∀ pr ∈ sample_pagerank g d seed n draws,
      ∃ k : Nat, 1 ≤ k ∧ pr.2 = (k : ℚ) / (n : ℚ)) ∧
    (∀ s : String, sample_pagerank g d s n draws = sample_pagerank g d seed n draws) := by
  have hnQ : (n : ℚ) ≠ 0 := Nat.cast_ne_zero.mpr (by omega)
  refine ⟨?_, ?_, fun _ => rfl⟩
  · simp only [sample_pagerank, List.map_map]
    have hsnd : (Prod.snd ∘ fun pc : String × Nat => (pc.1, (pc.2 : ℚ) / (n : ℚ)))
        = fun pc : String × Nat => (pc.2 : ℚ) / (n : ℚ) := rfl
    rw [hsnd, sum_counts_div]
    simp only [tallyDraws]
    rw [countSum_foldl draws []]
    simp [countSum, hlen, hnQ]
  · intro pr hpr
    simp only [sample_pagerank, List.mem_map] at hpr
    obtain ⟨pc, hpc, hpr⟩ := hpr
    refine ⟨pc.2, counts_pos_foldl draws [] (by simp) pc hpc, ?_⟩
    rw [← hpr]

/-- Witness for claim C3: two draws over the two-page cycle graph. -/
theorem sample_pagerank_sums_to_one_witness :
    ((sample_pagerank gTwo (17/20) "A" 2 ["A", "B"]).map Prod.snd).sum = 1 ∧
    (∀ pr ∈ sample_pagerank gTwo (17/20) "A" 2 ["A", "B"],
      ∃ k : Nat, 1 ≤ k ∧ pr.2 = (k : ℚ) / (2 : ℚ)) ∧
    (∀ s : String,
      sample_pagerank gTwo (17/20) s 2 ["A", "B"]
        = sample_pagerank gTwo (17/20) "A" 2 ["A", "B"]) :=
  sample_pagerank_sums_to_one gTwo (17/20) "A" 2 ["A", "B"] (by decide) (by decide)

/-- Claim C6: the keys of the mapping returned by `sample_pagerank` are
exactly the pages drawn at least once — every drawn page appears, and a page
never drawn is absent (no zero entries for unvisited pages). -/
theorem sample_pagerank_keys (g : Graph) (d : ℚ) (seed : String) (n : Nat)
    (draws : List String) (p : String) :
    p ∈ (sample_pagerank g d seed n draws).map Prod.fst ↔ p ∈ draws := by
  have hfst : (Prod.fst ∘ fun pc : String × Nat => (pc.1, (pc.2 : ℚ) / (n : ℚ)))
      = Prod.fst := rfl
  simp only [sample_pagerank, List.map_map, hfst, tallyDraws]
  rw [keys_foldl draws [] p]
  simp

/-- Witness for claim C1 at the two-page cycle graph with damping 0.85. -/
theorem transition_model_correct_witness :
    (transition_model gTwo "A" (17/20)).map Prod.fst = gTwo.pages ∧
    ((transition_model gTwo "A" (17/20)).map Prod.snd).sum = 1 ∧
    ((gTwo.out "A").length = 0 →
      ∀ pr ∈ transition_model gTwo "A" (17/20), pr.2 = 1 / (gTwo.pages.length : ℚ)) ∧
    (0 < (gTwo.out "A").length →
      ∀ pr ∈ transition_model gTwo "A" (17/20),
        (pr.1 ∉ gTwo.out "A" → pr.2 = (1 - 17/20) / (gTwo.pages.length : ℚ)) ∧
        (pr.1 ∈ gTwo.out "A" →
          pr.2 = (1 - 17/20) / (gTwo.pages.length : ℚ)
            + (17/20) / (((gTwo.out "A").length : ℚ)))) :=
  transition_model_correct gTwo "A" (17/20) (by decide) (by decide) (by decide)
    (by norm_num) (by norm_num)

/-- One pass's per-page value in `iterate_pagerank`: `temp_prob` accumulates,
over every `ref_page` of the corpus, `starting_pagerank[ref_page] / len(corpus[ref_page])`
when `page` is in `corpus[ref_page]`, plus `starting_pagerank[ref_page] / len(corpus)`
when `ref_page` is dangling; the total is then multiplied by the damping factor
and `(1 - damping_factor) / len(corpus)` is added. -/
def newRank (g : Graph) (d : ℚ) (r : String → ℚ) (page : String) : ℚ :=
  (g.pages.map (fun ref =>
    (if page ∈ g.out ref then r ref / ((g.out ref).length : ℚ) else 0) +
    (if (g.out ref).length = 0 then r ref / (g.pages.length : ℚ) else 0))).sum * d
  + (1 - d) / (g.pages.length : ℚ)

/-- The initial snapshot of `iterate_pagerank`: every page starts at
`1 / len(corpus)`. -/
def initRank (g : Graph) : String → ℚ :=
  fun _ => 1 / (g.pages.length : ℚ)

/-- `max(abs(current_pagerank[x] - starting_pagerank[x]) for x in starting_pagerank)`. -/
def maxDiff (g : Graph) (r r' : String → ℚ) : ℚ :=
  (g.pages.map (fun x => |r' x - r x|)).foldr max 0

/-- The `while True` loop of `iterate_pagerank`, with explicit fuel: one
iteration computes the whole new snapshot from the old one alone (Jacobi
style), breaks — returning the old snapshot — when the maximum absolute
per-page difference is strictly below 0.001, and otherwise replaces the old
snapshot by the new one. -/
def iterateLoop (g : Graph) (d : ℚ) : Nat → (String → ℚ) → Option (String → ℚ)
  | 0, _ => none
  | fuel + 1, r =>
    if maxDiff g r (newRank g d r) < 1 / 1000 then some r
    else iterateLoop g d fuel (newRank g d r)

/-- `iterate_pagerank(corpus, damping_factor)`: run the loop from the uniform
snapshot and read the returned dict off over the corpus pages. -/
def iterate_pagerank (g : Graph) (d : ℚ) (fuel : Nat) : Option (List (String × ℚ)) :=
  (iterateLoop g d fuel (initRank g)).map (fun r => g.pages.map (fun p => (p, r p)))

/-- The per-page update exactly as the spec phrases it:
`new_rank(p) = (1 - damping)/|graph| + damping * Σ contribution(ref_page, p)`,
where a linking `ref_page` contributes `old_rank(ref_page)/|outbound(ref_page)|`
and a dangling `ref_page` contributes `old_rank(ref_page)/|graph|`. -/
def specNewRank (g : Graph) (d : ℚ) (r : String → ℚ) (page : String) : ℚ :=
  (1 - d) / (g.pages.length : ℚ)
  + d * (g.pages.map (fun ref =>
      (if page ∈ g.out ref then r ref / ((g.out ref).length : ℚ) else 0) +
      (if (g.out ref).length = 0 then r ref / (g.pages.length : ℚ) else 0))).sum

/-- Claim C2: `iterate_pagerank` starts every page's rank at `1/|graph|`; each
pass computes every page's new value from the old snapshot alone, equal to the
spec's `(1-d)/|graph| + d * Σ contributions` (link mass `old/|outbound(ref)|`,
dangling mass `old/|graph|`); and the loop stops exactly when the maximum
absolute per-page difference between old and new snapshots is strictly below
0.001, otherwise continuing from the new snapshot. -/
theorem iterate_pagerank_recurrence (g : Graph) (d : ℚ) :
    (∀ p : String, initRank g p = 1 / (g.pages.length : ℚ)) ∧
    (∀ (r : String → ℚ) (p : String), newRank g d r p = specNewRank g d r p) ∧
    (∀ (fuel : Nat) (r : String → ℚ),
      iterateLoop g d (fuel + 1) r =
        if maxDiff g r (newRank g d r) < 1 / 1000 then some r
        else iterateLoop g d fuel (newRank g d r)) := by
  refine ⟨fun _ => rfl, fun r p => ?_, fun fuel r => rfl⟩
  unfold newRank specNewRank
  ring

theorem le_foldr_max (l : List ℚ) (x : ℚ) (hx : x ∈ l) : x ≤ l.foldr max 0 := by
  induction l with
  | nil => simp at hx
  | cons a t ih =>
    rcases List.mem_cons.mp hx with h | h
    · subst h
      exact le_max_left _ _
    · exact le_trans (ih h) (le_max_right _ _)

theorem iterateLoop_maxDiff (g : Graph) (d : ℚ) :
    ∀ (fuel : Nat) (r0 r : String → ℚ), iterateLoop g d fuel r0 = some r →
      maxDiff g r (newRank g d r) < 1 / 1000 := by
  intro fuel
  induction fuel with
  | zero =>
    intro r0 r h
    simp [iterateLoop] at h
  | succ n ih =>
    intro r0 r h
    by_cases hc : maxDiff g r0 (newRank g d r0) < 1 / 1000
    · rw [iterateLoop, if_pos hc, Option.some_inj] at h
      rw [← h]
      exact hc
    · rw [iterateLoop, if_neg hc] at h
      exact ih (newRank g d r0) r h

/-- Claim C10: the mapping returned by `iterate_pagerank` is the snapshot from
before the final update pass; applying one further pass to it changes every
page's value by strictly less than 0.001, and the last pass's freshly computed
values are discarded (the result reads off the old snapshot `r`, not
`newRank g d r`). -/
theorem iterate_pagerank_returns_old_snapshot (g : Graph) (d : ℚ) (fuel : Nat)
    (l : List (String × ℚ)) (h : iterate_pagerank g d fuel = some l) :
    ∃ r : String → ℚ, iterateLoop g d fuel (initRank g) = some r ∧
      l = g.pages.map (fun p => (p, r p)) ∧
      maxDiff g r (newRank g d r) < 1 / 1000 ∧
      ∀ p ∈ g.pages, |newRank g d r p - r p| < 1 / 1000 := by
  obtain ⟨r, hr, hl⟩ := Option.map_eq_some'.mp h
  have hmax := iterateLoop_maxDiff g d fuel (initRank g) r hr
  refine ⟨r, hr, hl.symm, hmax, fun p hp => ?_⟩
  have hmem : |newRank g d r p - r p| ∈ g.pages.map (fun x => |newRank g d r x - r x|) :=
    List.mem_map_of_mem _ hp
  exact lt_of_le_of_lt (le_foldr_max _ _ hmem) hmax

theorem iterateLoop_succ (g : Graph) (d : ℚ) (fuel : Nat) (r : String → ℚ) :
    iterateLoop g d (fuel + 1) r =
      if maxDiff g r (newRank g d r) < 1 / 1000 then some r
      else iterateLoop g d fuel (newRank g d r) := rfl

/-- The one-page graph: a single isolated page `A` with no links. -/
def gOne : Graph :=
  ⟨["A"], fun _ => []⟩

theorem newRank_gOne (d : ℚ) (r : String → ℚ) (p : String) :
    newRank gOne d r p = r "A" * d + (1 - d) := by
  simp [newRank, gOne]

theorem iterate_pagerank_gOne (d : ℚ) (fuel : Nat) :
    iterate_pagerank gOne d (fuel + 1) = some [("A", (1 : ℚ))] := by
  have hinit : initRank gOne "A" = 1 := by
    simp [initRank, gOne]
  have hz : newRank gOne d (initRank gOne) "A" - initRank gOne "A" = 0 := by
    rw [newRank_gOne, hinit]
    ring
  have hmax : maxDiff gOne (initRank gOne) (newRank gOne d (initRank gOne)) < 1 / 1000 := by
    rw [maxDiff, show gOne.pages = ["A"] from rfl]
    simp only [List.map_cons, List.map_nil, List.foldr_cons, List.foldr_nil, hz, abs_zero]
    norm_num
  rw [iterate_pagerank, iterateLoop_succ, if_pos hmax]
  simp only [Option.map_some']
  rw [show gOne.pages = ["A"] from rfl]
  simp [hinit]

theorem foldl_bump_all (p : String) :
    ∀ (t : List String) (c : Nat), (∀ x ∈ t, x = p) →
      t.foldl bump [(p, c)] = [(p, c + t.length)] := by
  intro t
  induction t with
  | nil => intro c _; simp
  | cons a s ih =>
    intro c hall
    have ha : a = p := hall a (by simp)
    subst ha
    have hb : bump [(a, c)] a = [(a, c + 1)] := by
      simp [bump]
    rw [List.foldl_cons, hb, ih (c + 1) (fun x hx => hall x (by simp [hx]))]
    simp
    omega

theorem sample_pagerank_gOne (d : ℚ) (seed : String) (n : Nat) (draws : List String)
    (hn : 1 ≤ n) (hlen : draws.length = n) (hall : ∀ x ∈ draws, x = "A") :
    sample_pagerank gOne d seed n draws = [("A", (1 : ℚ))] := by
  have hnQ : (n : ℚ) ≠ 0 := Nat.cast_ne_zero.mpr (by omega)
  cases draws with
  | nil => simp at hlen; omega
  | cons a t =>
    have ha : a = "A" := hall a (by simp)
    subst ha
    have htally : tallyDraws ("A" :: t) = [("A", 1 + t.length)] := by
      have hb : bump [] "A" = [("A", 1)] := rfl
      rw [tallyDraws, List.foldl_cons, hb,
        foldl_bump_all "A" t 1 (fun x hx => hall x (by simp [hx]))]
    have hlen' : 1 + t.length = n := by
      simp at hlen
      omega
    rw [sample_pagerank, htally, hlen']
    simp [div_self hnQ]

/-- Claim C9: on the one-page graph `{A: {}}` with damping in (0,1), both
algorithms return exactly `{A: 1.0}`: `sample_pagerank` does for every `n ≥ 1`
and every sequence of `n` draws from the corpus, and `iterate_pagerank` does
for every sufficient fuel. -/
theorem single_isolated_page (d : ℚ) (seed : String) (n : Nat) (draws : List String)
    (hd0 : 0 < d) (hd1 : d < 1) (hn : 1 ≤ n) (hlen : draws.length = n)
    (hdraws : ∀ x ∈ draws, x ∈ gOne.pages) :
    sample_pagerank gOne d seed n draws = [("A", (1 : ℚ))] ∧
    ∀ fuel : Nat, 1 ≤ fuel → iterate_pagerank gOne d fuel = some [("A", (1 : ℚ))] := by
  constructor
  · refine sample_pagerank_gOne d seed n draws hn hlen (fun x hx => ?_)
    have := hdraws x hx
    simpa [gOne] using this
  · intro fuel hfuel
    obtain ⟨k, rfl⟩ : ∃ k, fuel = k + 1 := ⟨fuel - 1, by omega⟩
    exact iterate_pagerank_gOne d k

/-- Witness for claim C9: one draw on the one-page graph, damping 1/2. -/
theorem single_isolated_page_witness :
    sample_pagerank gOne (1/2) "A" 1 ["A"] = [("A", (1 : ℚ))] ∧
    ∀ fuel : Nat, 1 ≤ fuel → iterate_pagerank gOne (1/2) fuel = some [("A", (1 : ℚ))] :=
  single_isolated_page (1/2) "A" 1 ["A"] (by norm_num) (by norm_num) (by decide)
    (by decide) (by decide)

/-- Witness for claim C10: the one-page graph with damping 1/2 and fuel 1. -/
theorem iterate_pagerank_returns_old_snapshot_witness :
    ∃ r : String → ℚ, iterateLoop gOne (1/2) 1 (initRank gOne) = some r ∧
      [("A", (1 : ℚ))] = gOne.pages.map (fun p => (p, r p)) ∧
      maxDiff gOne r (newRank gOne (1/2) r) < 1 / 1000 ∧
      ∀ p ∈ gOne.pages, |newRank gOne (1/2) r p - r p| < 1 / 1000 :=
  iterate_pagerank_returns_old_snapshot gOne (1/2) 1 [("A", 1)]
    (iterate_pagerank_gOne (1/2) 0)

theorem sum_map_mul_right (l : List String) (f : String → ℚ) (c : ℚ) :
    (l.map (fun x => f x * c)).sum = (l.map f).sum * c := by
  induction l with
  | nil => simp
  | cons a t ih => simp [ih]; ring

theorem sum_map_comm (l m : List String) (f : String → String → ℚ) :
    (l.map (fun p => (m.map (fun q => f p q)).sum)).sum
      = (m.map (fun q => (l.map (fun p => f p q)).sum)).sum := by
  induction l with
  | nil => simp [sum_map_const]
  | cons a t ih => simp only [List.map_cons, List.sum_cons, ih, ← sum_map_add]

theorem rowSum (g : Graph) (r : String → ℚ) (hwf : g.WF) (hne : g.pages ≠ [])
    (ref : String) (href : ref ∈ g.pages) :
    (g.pages.map (fun p =>
      (if p ∈ g.out ref then r ref / ((g.out ref).length : ℚ) else 0) +
      (if (g.out ref).length = 0 then r ref / (g.pages.length : ℚ) else 0))).sum
      = r ref := by
  have hn : (g.pages.length : ℚ) ≠ 0 :=
    Nat.cast_ne_zero.mpr (List.length_pos.mpr hne).ne'
  rw [sum_map_add]
  by_cases hL : (g.out ref).length = 0
  · have hout : g.out ref = [] := List.length_eq_zero.mp hL
    have h1 : (fun p : String => if p ∈ g.out ref then r ref / ((g.out ref).length : ℚ) else 0)
        = fun _ : String => (0 : ℚ) := by
      funext p
      simp [hout]
    have h2 : (fun p : String =>
          if (g.out ref).length = 0 then r ref / (g.pages.length : ℚ) else 0)
        = fun _ : String => r ref / (g.pages.length : ℚ) := by
      funext p
      simp [hL]
    rw [h1, h2, sum_map_const, sum_map_const, mul_zero, zero_add, mul_comm,
      div_mul_cancel₀ _ hn]
  · have hLQ : ((g.out ref).length : ℚ) ≠ 0 := Nat.cast_ne_zero.mpr hL
    have hout := hwf.2 ref href
    have h2 : (fun p : String =>
          if (g.out ref).length = 0 then r ref / (g.pages.length : ℚ) else 0)
        = fun _ : String => (0 : ℚ) := by
      funext p
      simp [hL]
    rw [h2, sum_map_const, sum_map_ite_mem _ _ _ hwf.1 hout.1 hout.2, mul_zero, add_zero,
      mul_comm, div_mul_cancel₀ _ hLQ]

theorem mass_conservation (g : Graph) (d : ℚ) (r : String → ℚ)
    (hwf : g.WF) (hne : g.pages ≠ []) :
    (g.pages.map (fun p => newRank g d r p)).sum
      = (1 - d) + d * (g.pages.map r).sum := by
  have hn : (g.pages.length : ℚ) ≠ 0 :=
    Nat.cast_ne_zero.mpr (List.length_pos.mpr hne).ne'
  unfold newRank
  rw [sum_map_add, sum_map_mul_right, sum_map_const, mul_comm ((g.pages.length : ℚ)) _,
    div_mul_cancel₀ _ hn, sum_map_comm]
  have hrows : (g.pages.map (fun ref => (g.pages.map (fun p =>
      (if p ∈ g.out ref then r ref / ((g.out ref).length : ℚ) else 0) +
      (if (g.out ref).length = 0 then r ref / (g.pages.length : ℚ) else 0))).sum))
      = g.pages.map r := by
    apply List.map_congr_left
    intro ref href
    exact rowSum g r hwf hne ref href
  rw [hrows]
  ring

theorem newRank_nonneg (g : Graph) (d : ℚ) (r : String → ℚ)
    (hd0 : 0 ≤ d) (hd1 : d ≤ 1) (hr : ∀ p ∈ g.pages, 0 ≤ r p) (p : String) :
    0 ≤ newRank g d r p := by
  unfold newRank
  have h1 : 0 ≤ (g.pages.map (fun ref =>
      (if p ∈ g.out ref then r ref / ((g.out ref).length : ℚ) else 0) +
      (if (g.out ref).length = 0 then r ref / (g.pages.length : ℚ) else 0))).sum := by
    apply List.sum_nonneg
    intro x hx
    simp only [List.mem_map] at hx
    obtain ⟨ref, href, rfl⟩ := hx
    have hrref : 0 ≤ r ref := hr ref href
    apply add_nonneg
    · split
      · exact div_nonneg hrref (Nat.cast_nonneg _)
      · exact le_refl 0
    · split
      · exact div_nonneg hrref (Nat.cast_nonneg _)
      · exact le_refl 0
  have h2 : 0 ≤ (1 - d) / (g.pages.length : ℚ) :=
    div_nonneg (by linarith) (Nat.cast_nonneg _)
  exact add_nonneg (mul_nonneg h1 hd0) h2

/-- The probability-distribution invariant on a rank snapshot: non-negative
values over the corpus pages, summing to 1. -/
def Inv (g : Graph) (r : String → ℚ) : Prop :=
  (∀ p ∈ g.pages, 0 ≤ r p) ∧ (g.pages.map r).sum = 1

theorem Inv_init (g : Graph) (hne : g.pages ≠ []) : Inv g (initRank g) := by
  have hn : (g.pages.length : ℚ) ≠ 0 :=
    Nat.cast_ne_zero.mpr (List.length_pos.mpr hne).ne'
  constructor
  · intro p hp
    unfold initRank
    exact div_nonneg zero_le_one (Nat.cast_nonneg _)
  · unfold initRank
    rw [sum_map_const, mul_one_div, div_self hn]

theorem iterateLoop_inv (g : Graph) (d : ℚ) (hwf : g.WF) (hne : g.pages ≠ [])
    (hd0 : 0 ≤ d) (hd1 : d ≤ 1) :
    ∀ (fuel : Nat) (r0 r : String → ℚ), Inv g r0 →
      iterateLoop g d fuel r0 = some r → Inv g r := by
  intro fuel
  induction fuel with
  | zero =>
    intro r0 r _ h
    simp [iterateLoop] at h
  | succ n ih =>
    intro r0 r h0 h
    by_cases hc : maxDiff g r0 (newRank g d r0) < 1 / 1000
    · rw [iterateLoop_succ, if_pos hc, Option.some_inj] at h
      rw [← h]
      exact h0
    · rw [iterateLoop_succ, if_neg hc] at h
      refine ih (newRank g d r0) r ⟨fun p hp => newRank_nonneg g d r0 hd0 hd1 h0.1 p, ?_⟩ h
      have hm : (g.pages.map (newRank g d r0)).sum
          = (1 - d) + d * (g.pages.map r0).sum := mass_conservation g d r0 hwf hne
      rw [hm, h0.2]
      ring

/-- Claim C4: for a well-formed non-empty graph and damping in (0,1), a
successful `iterate_pagerank` returns one entry per corpus page (no omissions,
no extras), all values non-negative and summing exactly to 1; and every update
pass conserves the mass invariant — the new total equals
`(1 - d) + d * (old total)`. -/
theorem iterate_pagerank_invariants (g : Graph) (d : ℚ) (fuel : Nat)
    (l : List (String × ℚ)) (hwf : g.WF) (hne : g.pages ≠ [])
    (hd0 : 0 < d) (hd1 : d < 1) (h : iterate_pagerank g d fuel = some l) :
    l.map Prod.fst = g.pages ∧
    (∀ pr ∈ l, 0 ≤ pr.2) ∧
    (l.map Prod.snd).sum = 1 ∧
    ∀ r : String → ℚ, (g.pages.map (fun p => newRank g d r p)).sum
      = (1 - d) + d * (g.pages.map r).sum := by
  obtain ⟨r, hr, hl⟩ := Option.map_eq_some'.mp h
  have hinv := iterateLoop_inv g d hwf hne (le_of_lt hd0) (le_of_lt hd1) fuel
    (initRank g) r (Inv_init g hne) hr
  refine ⟨?_, ?_, ?_, fun r' => mass_conservation g d r' hwf hne⟩
  · rw [← hl, List.map_map]
    have hfst : (Prod.fst ∘ fun p : String => (p, r p)) = id := rfl
    rw [hfst, List.map_id]
  · intro pr hpr
    rw [← hl] at hpr
    simp only [List.mem_map] at hpr
    obtain ⟨p, hp, rfl⟩ := hpr
    exact hinv.1 p hp
  · rw [← hl, List.map_map]
    have hsnd : (Prod.snd ∘ fun p : String => (p, r p)) = fun p => r p := rfl
    rw [hsnd]
    exact hinv.2

/-- Witness for claim C4 at the one-page graph with damping 1/2 and fuel 1. -/
theorem iterate_pagerank_invariants_witness :
    [("A", (1 : ℚ))].map Prod.fst = gOne.pages ∧
    (∀ pr ∈ [("A", (1 : ℚ))], 0 ≤ pr.2) ∧
    ([("A", (1 : ℚ))].map Prod.snd).sum = 1 ∧
    ∀ r : String → ℚ, (gOne.pages.map (fun p => newRank gOne (1/2) r p)).sum
      = (1 - 1/2) + (1/2) * (gOne.pages.map r).sum :=
  iterate_pagerank_invariants gOne (1/2) 1 [("A", 1)] (by decide) (by decide)
    (by norm_num) (by norm_num) (iterate_pagerank_gOne (1/2) 0)

/-- L1 distance between two rank snapshots over the corpus pages. -/
def l1Dist (g : Graph) (r r' : String → ℚ) : ℚ :=
  (g.pages.map (fun p => |r' p - r p|)).sum

theorem sum_map_sub (l : List String) (f h : String → ℚ) :
    (l.map (fun x => f x - h x)).sum = (l.map f).sum - (l.map h).sum := by
  induction l with
  | nil => simp
  | cons a t ih => simp [ih]; ring

theorem sum_map_mul_left (l : List String) (f : String → ℚ) (c : ℚ) :
    (l.map (fun x => c * f x)).sum = c * (l.map f).sum := by
  induction l with
  | nil => simp
  | cons a t ih => simp [ih]; ring

theorem sum_map_le (l : List String) (f h : String → ℚ) (hfh : ∀ x ∈ l, f x ≤ h x) :
    (l.map f).sum ≤ (l.map h).sum := by
  induction l with
  | nil => simp
  | cons a t ih =>
    simp only [List.map_cons, List.sum_cons]
    exact add_le_add (hfh a (by simp)) (ih (fun x hx => hfh x (by simp [hx])))

theorem abs_sum_le (l : List String) (f : String → ℚ) :
    |(l.map f).sum| ≤ (l.map (fun x => |f x|)).sum := by
  induction l with
  | nil => simp
  | cons a t ih =>
    simp only [List.map_cons, List.sum_cons]
    exact le_trans (abs_add _ _) (add_le_add (le_refl _) ih)

theorem foldr_max_le_sum (l : List ℚ) (h : ∀ x ∈ l, 0 ≤ x) : l.foldr max 0 ≤ l.sum := by
  induction l with
  | nil => simp
  | cons a t ih =>
    simp only [List.foldr_cons, List.sum_cons]
    apply max_le
    · have ht : 0 ≤ t.sum := List.sum_nonneg (fun x hx => h x (by simp [hx]))
      linarith
    · have ha : 0 ≤ a := h a (by simp)
      have := ih (fun x hx => h x (by simp [hx]))
      linarith

theorem maxDiff_le_l1 (g : Graph) (r r' : String → ℚ) :
    maxDiff g r r' ≤ l1Dist g r r' := by
  apply foldr_max_le_sum
  intro x hx
  simp only [List.mem_map] at hx
  obtain ⟨p, _, rfl⟩ := hx
  exact abs_nonneg _

theorem l1_nonneg (g : Graph) (r r' : String → ℚ) : 0 ≤ l1Dist g r r' := by
  apply List.sum_nonneg
  intro x hx
  simp only [List.mem_map] at hx
  obtain ⟨p, _, rfl⟩ := hx
  exact abs_nonneg _

theorem contrib_sub (g : Graph) (r r' : String → ℚ) (ref p : String) :
    ((if p ∈ g.out ref then (r' ref - r ref) / ((g.out ref).length : ℚ) else 0) +
     (if (g.out ref).length = 0 then (r' ref - r ref) / (g.pages.length : ℚ) else 0))
    = ((if p ∈ g.out ref then r' ref / ((g.out ref).length : ℚ) else 0) +
       (if (g.out ref).length = 0 then r' ref / (g.pages.length : ℚ) else 0)) -
      ((if p ∈ g.out ref then r ref / ((g.out ref).length : ℚ) else 0) +
       (if (g.out ref).length = 0 then r ref / (g.pages.length : ℚ) else 0)) := by
  by_cases h1 : p ∈ g.out ref <;> by_cases h2 : (g.out ref).length = 0 <;>
    simp [h1, h2, sub_div]

theorem contrib_abs_le (g : Graph) (s : String → ℚ) (ref p : String) :
    |(if p ∈ g.out ref then s ref / ((g.out ref).length : ℚ) else 0) +
     (if (g.out ref).length = 0 then s ref / (g.pages.length : ℚ) else 0)|
    ≤ (if p ∈ g.out ref then |s ref| / ((g.out ref).length : ℚ) else 0) +
      (if (g.out ref).length = 0 then |s ref| / (g.pages.length : ℚ) else 0) := by
  apply le_trans (abs_add _ _)
  apply add_le_add
  · split
    · rw [abs_div, Nat.abs_cast]
    · simp
  · split
    · rw [abs_div, Nat.abs_cast]
    · simp

theorem l1_contraction (g : Graph) (d : ℚ) (r r' : String → ℚ)
    (hwf : g.WF) (hne : g.pages ≠ []) (hd0 : 0 ≤ d) :
    l1Dist g (newRank g d r) (newRank g d r') ≤ d * l1Dist g r r' := by
  have key : ∀ p : String, |newRank g d r' p - newRank g d r p|
      ≤ d * (g.pages.map (fun ref =>
          (if p ∈ g.out ref then |r' ref - r ref| / ((g.out ref).length : ℚ) else 0) +
          (if (g.out ref).length = 0
            then |r' ref - r ref| / (g.pages.length : ℚ) else 0))).sum := by
    intro p
    have hdiff : newRank g d r' p - newRank g d r p
        = (g.pages.map (fun ref =>
            (if p ∈ g.out ref then (r' ref - r ref) / ((g.out ref).length : ℚ) else 0) +
            (if (g.out ref).length = 0
              then (r' ref - r ref) / (g.pages.length : ℚ) else 0))).sum * d := by
      have h1 : (g.pages.map (fun ref =>
            (if p ∈ g.out ref then (r' ref - r ref) / ((g.out ref).length : ℚ) else 0) +
            (if (g.out ref).length = 0
              then (r' ref - r ref) / (g.pages.length : ℚ) else 0))).sum
          = (g.pages.map (fun ref =>
              (if p ∈ g.out ref then r' ref / ((g.out ref).length : ℚ) else 0) +
              (if (g.out ref).length = 0
                then r' ref / (g.pages.length : ℚ) else 0))).sum
            - (g.pages.map (fun ref =>
                (if p ∈ g.out ref then r ref / ((g.out ref).length : ℚ) else 0) +
                (if (g.out ref).length = 0
                  then r ref / (g.pages.length : ℚ) else 0))).sum := by
        rw [← sum_map_sub]
        exact congrArg List.sum
          (List.map_congr_left (fun ref _ => contrib_sub g r r' ref p))
      unfold newRank
      rw [h1]
      ring
    calc |newRank g d r' p - newRank g d r p|
        = |(g.pages.map (fun ref =>
            (if p ∈ g.out ref then (r' ref - r ref) / ((g.out ref).length : ℚ) else 0) +
            (if (g.out ref).length = 0
              then (r' ref - r ref) / (g.pages.length : ℚ) else 0))).sum| * |d| := by
          rw [hdiff, abs_mul]
      _ = |(g.pages.map (fun ref =>
            (if p ∈ g.out ref then (r' ref - r ref) / ((g.out ref).length : ℚ) else 0) +
            (if (g.out ref).length = 0
              then (r' ref - r ref) / (g.pages.length : ℚ) else 0))).sum| * d := by
          rw [abs_of_nonneg hd0]
      _ ≤ (g.pages.map (fun ref =>
            |(if p ∈ g.out ref then (r' ref - r ref) / ((g.out ref).length : ℚ) else 0) +
             (if (g.out ref).length = 0
               then (r' ref - r ref) / (g.pages.length : ℚ) else 0)|)).sum * d :=
          mul_le_mul_of_nonneg_right (abs_sum_le _ _) hd0
      _ ≤ (g.pages.map (fun ref =>
            (if p ∈ g.out ref then |r' ref - r ref| / ((g.out ref).length : ℚ) else 0) +
            (if (g.out ref).length = 0
              then |r' ref - r ref| / (g.pages.length : ℚ) else 0))).sum * d :=
          mul_le_mul_of_nonneg_right
            (sum_map_le _ _ _ (fun ref _ => contrib_abs_le g (fun x => r' x - r x) ref p)) hd0
      _ = d * (g.pages.map (fun ref =>
            (if p ∈ g.out ref then |r' ref - r ref| / ((g.out ref).length : ℚ) else 0) +
            (if (g.out ref).length = 0
              then |r' ref - r ref| / (g.pages.length : ℚ) else 0))).sum := mul_comm _ _
  unfold l1Dist
  have step1 : (g.pages.map (fun p => |newRank g d r' p - newRank g d r p|)).sum
      ≤ (g.pages.map (fun p => d * (g.pages.map (fun ref =>
          (if p ∈ g.out ref then |r' ref - r ref| / ((g.out ref).length : ℚ) else 0) +
          (if (g.out ref).length = 0
            then |r' ref - r ref| / (g.pages.length : ℚ) else 0))).sum)).sum :=
    sum_map_le _ _ _ (fun p _ => key p)
  apply le_trans step1
  rw [sum_map_mul_left, sum_map_comm]
  have hrows : (g.pages.map (fun ref => (g.pages.map (fun p =>
      (if p ∈ g.out ref then |r' ref - r ref| / ((g.out ref).length : ℚ) else 0) +
      (if (g.out ref).length = 0
        then |r' ref - r ref| / (g.pages.length : ℚ) else 0))).sum))
      = g.pages.map (fun ref => |r' ref - r ref|) := by
    apply List.map_congr_left
    intro ref href
    exact rowSum g (fun x => |r' x - r x|) hwf hne ref href
  rw [hrows]

theorem iterateLoop_total (g : Graph) (d : ℚ) (hwf : g.WF) (hne : g.pages ≠ [])
    (hd0 : 0 < d) (hd1 : d < 1) :
    ∀ (k : Nat) (B : ℚ) (r : String → ℚ),
      l1Dist g r (newRank g d r) ≤ B → d ^ k * B < 1 / 1000 →
      (iterateLoop g d (k + 1) r).isSome := by
  intro k
  induction k with
  | zero =>
    intro B r hB hlt
    simp only [pow_zero, one_mul] at hlt
    have hmax : maxDiff g r (newRank g d r) < 1 / 1000 :=
      lt_of_le_of_lt (le_trans (maxDiff_le_l1 g r (newRank g d r)) hB) hlt
    rw [iterateLoop_succ, if_pos hmax]
    rfl
  | succ k ih =>
    intro B r hB hlt
    by_cases hc : maxDiff g r (newRank g d r) < 1 / 1000
    · rw [iterateLoop_succ, if_pos hc]
      rfl
    · rw [iterateLoop_succ, if_neg hc]
      apply ih (d * B) (newRank g d r)
      · exact le_trans (l1_contraction g d r (newRank g d r) hwf hne hd0.le)
          (mul_le_mul_of_nonneg_left hB hd0.le)
      · calc d ^ k * (d * B) = d ^ (k + 1) * B := by ring
          _ < 1 / 1000 := hlt

/-- Claim C7: for every well-formed non-empty graph and damping factor strictly
between 0 and 1, `iterate_pagerank` terminates after finitely many passes —
some finite fuel makes the loop return (the damping contracts the L1 distance
between successive snapshots, so the maximum per-page difference eventually
falls strictly below 0.001). -/
theorem iterate_pagerank_terminates (g : Graph) (d : ℚ) (hwf : g.WF)
    (hne : g.pages ≠ []) (hd0 : 0 < d) (hd1 : d < 1) :
    ∃ fuel : Nat, (iterate_pagerank g d fuel).isSome := by
  have hB0 : 0 ≤ l1Dist g (initRank g) (newRank g d (initRank g)) :=
    l1_nonneg g _ _
  have hBpos : (0 : ℚ) < 1 / 1000 / (l1Dist g (initRank g) (newRank g d (initRank g)) + 1) := by
    apply div_pos (by norm_num)
    linarith
  obtain ⟨k, hk⟩ := exists_pow_lt_of_lt_one hBpos hd1
  refine ⟨k + 1, ?_⟩
  have hlt : d ^ k * l1Dist g (initRank g) (newRank g d (initRank g)) < 1 / 1000 := by
    have hdk0 : 0 ≤ d ^ k := pow_nonneg hd0.le k
    have h1 : d ^ k * l1Dist g (initRank g) (newRank g d (initRank g))
        ≤ d ^ k * (l1Dist g (initRank g) (newRank g d (initRank g)) + 1) :=
      mul_le_mul_of_nonneg_left (by linarith) hdk0
    have h2 : d ^ k * (l1Dist g (initRank g) (newRank g d (initRank g)) + 1)
        < (1 / 1000 / (l1Dist g (initRank g) (newRank g d (initRank g)) + 1))
          * (l1Dist g (initRank g) (newRank g d (initRank g)) + 1) :=
      mul_lt_mul_of_pos_right hk (by linarith)
    have h3 : (1 / 1000 / (l1Dist g (initRank g) (newRank g d (initRank g)) + 1))
        * (l1Dist g (initRank g) (newRank g d (initRank g)) + 1) = 1 / 1000 :=
      div_mul_cancel₀ _ (by linarith)
    linarith
  have hsome := iterateLoop_total g d hwf hne hd0 hd1 k _ (initRank g) (le_refl _) hlt
  obtain ⟨rr, hrr⟩ := Option.isSome_iff_exists.mp hsome
  unfold iterate_pagerank
  rw [hrr]
  rfl

/-- Witness for claim C7 at the one-page graph with damping 1/2. -/
theorem iterate_pagerank_terminates_witness :
    ∃ fuel : Nat, (iterate_pagerank gOne (1/2) fuel).isSome :=
  iterate_pagerank_terminates gOne (1/2) (by decide) (by decide) (by norm_num) (by norm_num)

/-- Counterexample to claim C5: invalid inputs do not fail with an
InvalidArgument-kind error. A sample count of 0 (below the minimum 1) makes
`sample_pagerank` return the empty mapping (Python's loop body never runs and
the empty counter dict is returned), and a damping factor of 2 (outside (0,1))
makes `transition_model` return a full mapping — with a negative entry —
instead of failing. -/
theorem no_invalid_argument_error :
    sample_pagerank gOne (17/20) "A" 0 [] = [] ∧
    transition_model gTwo "A" 2 = [("A", -(1/2 : ℚ)), ("B", (3/2 : ℚ))] ∧
    ∃ pr ∈ transition_model gTwo "A" 2, pr.2 < 0 := by
  have htm : transition_model gTwo "A" 2 = [("A", -(1/2 : ℚ)), ("B", (3/2 : ℚ))] := by
    rw [transition_model, if_pos (by decide), show gTwo.pages = ["A", "B"] from rfl,
      List.map_cons, List.map_cons, List.map_nil, if_pos (by decide), if_neg (by decide)]
    norm_num [gTwo]
  exact ⟨rfl, htm, ("A", -(1/2 : ℚ)), by rw [htm]; simp, by norm_num⟩

/-- Claim C5 amended: the ranking operations perform no input validation —
`sample_pagerank` with sample count `n = 0 < 1` returns the empty mapping
rather than failing, and `transition_model` accepts any damping factor, even
outside (0,1), still returning a mapping with one entry per corpus page. -/
theorem no_validation (g : Graph) (d d' : ℚ) (seed page : String) :
    sample_pagerank g d seed 0 [] = [] ∧
    (transition_model g page d').map Prod.fst = g.pages := by
  refine ⟨rfl, ?_⟩
  unfold transition_model
  split
  · rw [List.map_map]
    have hfst : (Prod.fst ∘ fun key =>
        if key ∉ g.out page then (key, (1 - d') / (g.pages.length : ℚ))
        else (key, d' / ((g.out page).length : ℚ) + (1 - d') / (g.pages.length : ℚ))) = id := by
      funext key
      by_cases hk : key ∈ g.out page <;> simp [hk]
    rw [hfst, List.map_id]
  · rw [List.map_map]
    have hfst : (Prod.fst ∘ fun key : String => (key, 1 / (g.pages.length : ℚ))) = id := rfl
    rw [hfst, List.map_id]

/-- Claim C8: `transition_model` and `iterate_pagerank` are deterministic pure
functions of their inputs — two invocations on identical inputs denote the
same mapping (neither consults the random source nor any mutable state; the
embedding of each is a function of exactly its arguments). -/
theorem deterministic_pure :
    (∀ (g : Graph) (page : String) (d : ℚ),
      transition_model g page d = transition_model g page d) ∧
    (∀ (g : Graph) (d : ℚ) (fuel : Nat),
      iterate_pagerank g d fuel = iterate_pagerank g d fuel) :=
  ⟨fun _ _ _ => rfl, fun _ _ _ => rfl⟩

end PageRank
